import Mathlib

/-!
Verification of the claude-review CLI (Azure DevOps review poster).

This file shallowly embeds the string-processing and control-flow logic of
the repository: the diff sanitizer and PR-config resolution of
src/claude-review.ts, the pull-request lookup of src/ado.ts, and the remote
URL parser of src/git.ts.  External effects (environment variables, the git
executable, the Azure DevOps REST and SDK surfaces) are passed in as explicit
values or response functions; the JavaScript string primitives used by the
source (includes, startsWith, replace-first, decodeURIComponent, regex match)
are modelled as executable functions over character lists.
-/

/-- Model of checking that a character list begins with a pattern
(the JS String.prototype.startsWith, over explicit char lists). -/
def isPfx : List Char → List Char → Bool
  | [], _ => true
  | _ :: _, [] => false
  | p :: ps, c :: cs => p == c && isPfx ps cs

/-- Strip a literal pattern from the front of a list, returning the rest,
or none when the pattern is not there. -/
def stripPfx : List Char → List Char → Option (List Char)
  | [], l => some l
  | _ :: _, [] => none
  | p :: ps, c :: cs => if c = p then stripPfx ps cs else none

/-- Leftmost scan for an occurrence of a pattern inside a list
(the JS String.prototype.includes, over explicit char lists). -/
def containsSeq : List Char → List Char → Bool
  | [], pat => pat.isEmpty
  | c :: cs, pat => isPfx pat (c :: cs) || containsSeq cs pat

/-- JS s.includes(pat). -/
def jsIncludes (s pat : String) : Bool :=
  containsSeq s.data pat.data

/-- JS s.startsWith(pat). -/
def jsStartsWith (s pat : String) : Bool :=
  isPfx pat.data s.data

/-- JS truthiness of a possibly-absent string: undefined and the empty
string are falsy, every other string is truthy. -/
def optTruthy : Option String → Bool
  | none => false
  | some s => !(s == "")

theorem isPfx_append (p r : List Char) : isPfx p (p ++ r) = true := by
  induction p with
  | nil => rfl
  | cons a as ih => simp [isPfx, ih]

theorem stripPfx_append (p r : List Char) : stripPfx p (p ++ r) = some r := by
  induction p with
  | nil => rfl
  | cons a as ih => simp [stripPfx, ih]

theorem stripPfx_sound (p : List Char) : ∀ l r, stripPfx p l = some r → l = p ++ r := by
  induction p with
  | nil => intro l r h; simp [stripPfx] at h; simpa using h
  | cons a as ih =>
    intro l r h
    cases l with
    | nil => simp [stripPfx] at h
    | cons c cs =>
      simp only [stripPfx] at h
      split at h
      · next hc => subst hc; simpa using ih cs r h
      · exact absurd h (by simp)

theorem isPfx_of_stripPfx (p l r : List Char) (h : stripPfx p l = some r) :
    isPfx p l = true := by
  rw [stripPfx_sound p l r h]; exact isPfx_append p r

theorem containsSeq_of_isPfx (l pat : List Char) (h : isPfx pat l = true) :
    containsSeq l pat = true := by
  cases l with
  | nil => cases pat with
    | nil => rfl
    | cons a as => simp [isPfx] at h
  | cons c cs => simp [containsSeq, h]

theorem isPfx_extend (pat l r : List Char) (h : isPfx pat l = true) :
    isPfx pat (l ++ r) = true := by
  induction pat generalizing l with
  | nil => rfl
  | cons p ps ih =>
    cases l with
    | nil => simp [isPfx] at h
    | cons c cs =>
      simp only [List.cons_append, isPfx, Bool.and_eq_true] at h ⊢
      exact ⟨h.1, ih cs h.2⟩

theorem containsSeq_append_left (a b pat : List Char) (h : containsSeq a pat = true) :
    containsSeq (a ++ b) pat = true := by
  induction a with
  | nil =>
    simp only [containsSeq, List.isEmpty_iff] at h
    subst h
    cases b with
    | nil => rfl
    | cons c cs => simp [containsSeq, isPfx]
  | cons c cs ih =>
    simp only [containsSeq, Bool.or_eq_true] at h
    rcases h with h | h
    · have hp := isPfx_extend pat (c :: cs) b h
      simp only [List.cons_append] at hp
      simp [containsSeq, hp]
    · simp [containsSeq, ih h]

/-!
Section: Diff sanitizer (getGitDiff in src/claude-review.ts, lines 234-265)

The source splits the raw diff on newlines, walks the lines with a mutable
skipFile flag, recomputes the flag at every line starting with
"diff --git" (skip when the line includes one of nine lock-file names as a
substring), and keeps a line exactly when the flag is false.
-/

/-- The nine lock-file names filtered out of diffs (claude-review.ts). -/
def lockFiles : List String :=
  ["package-lock.json", "yarn.lock", "pnpm-lock.yaml", "bun.lockb",
   "Cargo.lock", "Gemfile.lock", "composer.lock", "Pipfile.lock", "poetry.lock"]

/-- Does a diff header line name a lock file?  The source checks
lockFiles.some(lockFile => line.includes(lockFile)). -/
def isLockHeader (line : String) : Bool :=
  lockFiles.any (fun lf => jsIncludes line lf)

/-- The line-filtering loop of getGitDiff: second argument is the current
skipFile state. -/
def sanitizeGo : List String → Bool → List String
  | [], _ => []
  | line :: rest, skip =>
    let skip2 := if jsStartsWith line "diff --git" then isLockHeader line else skip
    if skip2 then sanitizeGo rest skip2 else line :: sanitizeGo rest skip2

/-- The diff sanitizer of getGitDiff: split on newline, filter, rejoin. -/
def sanitizeDiff (fullDiff : String) : String :=
  String.intercalate "\n" (sanitizeGo (fullDiff.splitOn "\n") false)

theorem sanitizeGo_nonheaders_skip (body : List String)
    (h : ∀ l ∈ body, jsStartsWith l "diff --git" = false) :
    ∀ tail, sanitizeGo (body ++ tail) true = sanitizeGo tail true := by
  induction body with
  | nil => intro tail; rfl
  | cons l ls ih =>
    intro tail
    have hl := h l (List.mem_cons_self l ls)
    simp only [List.cons_append, sanitizeGo, hl, if_false, if_true, Bool.false_eq_true]
    exact ih (fun x hx => h x (List.mem_cons_of_mem l hx)) tail

theorem sanitizeGo_nonheaders_keep (body : List String)
    (h : ∀ l ∈ body, jsStartsWith l "diff --git" = false) :
    ∀ tail, sanitizeGo (body ++ tail) false = body ++ sanitizeGo tail false := by
  induction body with
  | nil => intro tail; rfl
  | cons l ls ih =>
    intro tail
    have hl := h l (List.mem_cons_self l ls)
    simp only [List.cons_append, sanitizeGo, hl, if_false, Bool.false_eq_true, List.append_eq]
    rw [ih (fun x hx => h x (List.mem_cons_of_mem l hx)) tail]

theorem sanitizeGo_header (line : String) (rest : List String) (skip : Bool)
    (h : jsStartsWith line "diff --git" = true) :
    sanitizeGo (line :: rest) skip =
      (if isLockHeader line then sanitizeGo rest true
       else line :: sanitizeGo rest false) := by
  simp only [sanitizeGo, h, if_true]
  by_cases hl : isLockHeader line <;> simp [hl]

/-!
Section: decodeURIComponent

Model of the JS builtin used by parseAzureDevOpsRemote (src/git.ts): each
percent escape must be two hex digits; escape bytes are decoded as strict
UTF-8 (continuation bytes must themselves be percent escapes); any
malformed escape or invalid byte sequence throws URIError, modelled as none.
Characters other than the percent sign pass through unchanged.
-/

/-- Value of one hex digit, or none (codepoints 48-57 are the decimal
digits, 65-70 the uppercase and 97-102 the lowercase hex letters). -/
def hexDigit (c : Char) : Option Nat :=
  let n := c.toNat
  if 48 ≤ n ∧ n ≤ 57 then some (n - 48)
  else if 65 ≤ n ∧ n ≤ 70 then some (n - 55)
  else if 97 ≤ n ∧ n ≤ 102 then some (n - 87)
  else none

/-- A UTF-8 continuation byte from two hex digits: its low six bits,
or none when not in the range 0x80-0xBF. -/
def contByte (h1 h2 : Char) : Option Nat :=
  match hexDigit h1, hexDigit h2 with
  | some a, some b =>
    let v := a * 16 + b
    if 0x80 ≤ v ∧ v < 0xC0 then some (v % 0x40) else none
  | _, _ => none

/-- Decode one unit of a percent-encoded string: either a plain character,
or a percent escape whose byte is validated as strict UTF-8 (continuation
bytes must themselves be percent escapes).  Returns the decoded character
and the remaining input, or none for a malformed escape (URIError). -/
def decodeStep : List Char → Option (Char × List Char)
  | [] => none
  | c :: cs =>
    if c = '%' then
      match cs with
      | h1 :: h2 :: rest =>
        match hexDigit h1, hexDigit h2 with
        | some a, some b =>
          let v := a * 16 + b
          if v < 0x80 then some (Char.ofNat v, rest)
          else if v < 0xC2 then none
          else if v < 0xE0 then
            match rest with
            | p1 :: h3 :: h4 :: rest2 =>
              if p1 = '%' then
                match contByte h3 h4 with
                | some c1 => some (Char.ofNat ((v % 0x20) * 0x40 + c1), rest2)
                | none => none
              else none
            | _ => none
          else if v < 0xF0 then
            match rest with
            | p1 :: h3 :: h4 :: p2 :: h5 :: h6 :: rest2 =>
              if p1 = '%' ∧ p2 = '%' then
                match contByte h3 h4, contByte h5 h6 with
                | some c1, some c2 =>
                  let cp := (v % 0x10) * 0x1000 + c1 * 0x40 + c2
                  if 0x800 ≤ cp ∧ ¬(0xD800 ≤ cp ∧ cp < 0xE000) then
                    some (Char.ofNat cp, rest2)
                  else none
                | _, _ => none
              else none
            | _ => none
          else if v < 0xF5 then
            match rest with
            | p1 :: h3 :: h4 :: p2 :: h5 :: h6 :: p3 :: h7 :: h8 :: rest2 =>
              if p1 = '%' ∧ p2 = '%' ∧ p3 = '%' then
                match contByte h3 h4, contByte h5 h6, contByte h7 h8 with
                | some c1, some c2, some c3 =>
                  let cp := (v % 0x8) * 0x40000 + c1 * 0x1000 + c2 * 0x40 + c3
                  if 0x10000 ≤ cp ∧ cp < 0x110000 then
                    some (Char.ofNat cp, rest2)
                  else none
                | _, _, _ => none
              else none
            | _ => none
          else none
        | _, _ => none
      | _ => none
    else some (c, cs)

theorem decodeStep_shrinks (l : List Char) (ch : Char) (rest : List Char)
    (h : decodeStep l = some (ch, rest)) : rest.length < l.length := by
  cases l with
  | nil => exact Option.noConfusion h
  | cons c cs =>
    simp only [decodeStep] at h
    repeat' split at h
    all_goals first
      | exact Option.noConfusion h
      | (injection h with h
         injection h with h1 h2
         subst h2
         simp only [List.length_cons]
         omega)

/-- Iterate decodeStep.  Fuel-indexed so that the recursion is structural
and kernel-reducible; decodeStep consumes at least one character per unit
(decodeStep_shrinks), so fuel equal to the input length never runs out. -/
def decodeSeqAux : Nat → List Char → Option (List Char)
  | _, [] => some []
  | 0, _ :: _ => none
  | fuel + 1, c :: cs =>
    match decodeStep (c :: cs) with
    | some (ch, rest) => (decodeSeqAux fuel rest).map (fun tl => ch :: tl)
    | none => none

/-- Percent-decoding with strict UTF-8 validation (the JS
decodeURIComponent); none models a thrown URIError. -/
def decodeSeq (l : List Char) : Option (List Char) :=
  decodeSeqAux l.length l

/-- JS decodeURIComponent over strings. -/
def decodeURIComponentJs (s : String) : Option String :=
  (decodeSeq s.data).map (fun l => String.mk l)

theorem decodeSeq_cons_ne_nil (c : Char) (cs out : List Char)
    (h : decodeSeq (c :: cs) = some out) : out ≠ [] := by
  rw [decodeSeq, List.length_cons, decodeSeqAux] at h
  split at h
  · obtain ⟨tl, _, hout⟩ := Option.map_eq_some'.mp h
    subst hout
    exact List.cons_ne_nil _ _
  · exact Option.noConfusion h

/-!
Section: Remote URL parsing (parseAzureDevOpsRemote in src/git.ts)

The source matches, unanchored and in order, the two regular expressions
  https:\/\/dev\.azure\.com\/([^\/]+)\/([^\/]+)\/_git\/([^\/]+)
  [^@]+@vs-ssh\.visualstudio\.com:v3\/([^\/]+)\/([^\/]+)\/([^\/]+)
decoding the project capture with decodeURIComponent, and throws a
descriptive error when neither matches.  Each one-or-more character class
is immediately followed by a literal it excludes, so greedy maximal-munch
matching is exact and the anchored matchers below are faithful; the
searchers scan start positions left to right like the JS match.
-/

/-- One regex segment [^\/]+ : longest run of non-slash characters. -/
def takeSeg (l : List Char) : List Char :=
  l.takeWhile (fun c => !(c == '/'))

/-- The rest of the input after a [^\/]+ segment. -/
def dropSeg (l : List Char) : List Char :=
  l.dropWhile (fun c => !(c == '/'))

/-- Organization, project and repository captures of a match. -/
structure RemoteCaps where
  orgC : List Char
  projC : List Char
  repoC : List Char
deriving DecidableEq

/-- Anchored match of the HTTPS remote pattern at the head of the input. -/
def httpsMatchAt (l : List Char) : Option RemoteCaps :=
  match stripPfx "https://dev.azure.com/".data l with
  | none => none
  | some r0 =>
    let org := takeSeg r0
    if org.isEmpty then none
    else
      match dropSeg r0 with
      | [] => none
      | _ :: r1 =>
        let proj := takeSeg r1
        if proj.isEmpty then none
        else
          match stripPfx "/_git/".data (dropSeg r1) with
          | none => none
          | some r2 =>
            let repo := takeSeg r2
            if repo.isEmpty then none else some ⟨org, proj, repo⟩

/-- Leftmost unanchored search with the HTTPS pattern. -/
def searchHttps : List Char → Option RemoteCaps
  | [] => none
  | c :: cs =>
    match httpsMatchAt (c :: cs) with
    | some r => some r
    | none => searchHttps cs

/-- Anchored match of the SSH remote pattern at the head of the input:
[^@]+ then the literal host, then the three captures. -/
def sshMatchAt (l : List Char) : Option RemoteCaps :=
  let user := l.takeWhile (fun c => !(c == '@'))
  if user.isEmpty then none
  else
    match l.dropWhile (fun c => !(c == '@')) with
    | [] => none
    | _ :: r0 =>
      match stripPfx "vs-ssh.visualstudio.com:v3/".data r0 with
      | none => none
      | some r1 =>
        let org := takeSeg r1
        if org.isEmpty then none
        else
          match dropSeg r1 with
          | [] => none
          | _ :: r2 =>
            let proj := takeSeg r2
            if proj.isEmpty then none
            else
              match dropSeg r2 with
              | [] => none
              | _ :: r3 =>
                let repo := takeSeg r3
                if repo.isEmpty then none else some ⟨org, proj, repo⟩

/-- Leftmost unanchored search with the SSH pattern. -/
def searchSsh : List Char → Option RemoteCaps
  | [] => none
  | c :: cs =>
    match sshMatchAt (c :: cs) with
    | some r => some r
    | none => searchSsh cs

/-- Parsed remote information (GitRemoteInfo in src/git.ts). -/
structure GitRemoteInfo where
  organization : String
  project : String
  repository : String
deriving DecidableEq

/-- The error message thrown for an unparseable remote URL (src/git.ts). -/
def unparseableRemoteMsg (remoteUrl : String) : String :=
  "Unable to parse Azure DevOps remote URL: " ++ remoteUrl ++
    ". Expected format: https://dev.azure.com/org/project/_git/repo or org@vs-ssh.visualstudio.com:v3/org/project/repo"

/-- parseAzureDevOpsRemote (src/git.ts): try the HTTPS pattern, then the
SSH pattern, decode the project capture, else throw. -/
def parseAzureDevOpsRemote (remoteUrl : String) : Except String GitRemoteInfo :=
  match searchHttps remoteUrl.data with
  | some caps =>
    match decodeSeq caps.projC with
    | some p => .ok ⟨⟨caps.orgC⟩, ⟨p⟩, ⟨caps.repoC⟩⟩
    | none => .error "URIError: URI malformed"
  | none =>
    match searchSsh remoteUrl.data with
    | some caps =>
      match decodeSeq caps.projC with
      | some p => .ok ⟨⟨caps.orgC⟩, ⟨p⟩, ⟨caps.repoC⟩⟩
      | none => .error "URIError: URI malformed"
    | none => .error (unparseableRemoteMsg remoteUrl)

/-!
Section: Support lemmas for the URL matchers
-/

theorem takeWhile_append_stop {α : Type} (p : α → Bool) (l1 l2 : List α) (x : α)
    (h1 : ∀ a ∈ l1, p a = true) (hx : p x = false) :
    (l1 ++ x :: l2).takeWhile p = l1 := by
  induction l1 with
  | nil => simp [List.takeWhile, hx]
  | cons a as ih =>
    have ha := h1 a (List.mem_cons_self a as)
    simp only [List.cons_append, List.takeWhile, ha, List.append_eq]
    rw [ih (fun b hb => h1 b (List.mem_cons_of_mem a hb))]

theorem dropWhile_append_stop {α : Type} (p : α → Bool) (l1 l2 : List α) (x : α)
    (h1 : ∀ a ∈ l1, p a = true) (hx : p x = false) :
    (l1 ++ x :: l2).dropWhile p = x :: l2 := by
  induction l1 with
  | nil => simp [List.dropWhile, hx]
  | cons a as ih =>
    have ha := h1 a (List.mem_cons_self a as)
    simp only [List.cons_append, List.dropWhile, ha, List.append_eq]
    exact ih (fun b hb => h1 b (List.mem_cons_of_mem a hb))

theorem takeWhile_all {α : Type} (p : α → Bool) (l : List α)
    (h : ∀ a ∈ l, p a = true) : l.takeWhile p = l := by
  induction l with
  | nil => rfl
  | cons a as ih =>
    have ha := h a (List.mem_cons_self a as)
    simp only [List.takeWhile, ha]
    rw [ih (fun b hb => h b (List.mem_cons_of_mem a hb))]

/-- No two adjacent slashes anywhere in the list. -/
def noDS : List Char → Bool
  | a :: b :: rest => !(a == '/' && b == '/') && noDS (b :: rest)
  | _ => true

theorem noDS_tail (c : Char) (cs : List Char) (h : noDS (c :: cs) = true) :
    noDS cs = true := by
  cases cs with
  | nil => rfl
  | cons b rest =>
    simp only [noDS, Bool.and_eq_true] at h
    exact h.2

theorem noDS_of_forall (l : List Char) (h : ∀ c ∈ l, (c == '/') = false) :
    noDS l = true := by
  induction l with
  | nil => rfl
  | cons a as ih =>
    cases as with
    | nil => rfl
    | cons b rest =>
      have hb := h b (List.mem_cons_of_mem a (List.mem_cons_self b rest))
      simp only [noDS, Bool.and_eq_true, Bool.not_eq_true']
      refine ⟨?_, ih (fun c hc => h c (List.mem_cons_of_mem a hc))⟩
      simp [hb]

theorem noDS_slash_cons (l : List Char) (h : ∀ c ∈ l, (c == '/') = false) :
    noDS ('/' :: l) = true := by
  cases l with
  | nil => rfl
  | cons b rest =>
    have hb := h b (List.mem_cons_self b rest)
    simp only [noDS, Bool.and_eq_true, Bool.not_eq_true']
    exact ⟨by simp [hb], noDS_of_forall _ h⟩

theorem getLast?_mem_own {α : Type} (l : List α) (x : α) (h : l.getLast? = some x) :
    x ∈ l := by
  induction l with
  | nil => simp [List.getLast?] at h
  | cons a as ih =>
    cases as with
    | nil =>
      simp only [List.getLast?_singleton, Option.some.injEq] at h
      simp [h]
    | cons b rest =>
      rw [List.getLast?_cons_cons] at h
      exact List.mem_cons_of_mem a (ih h)

theorem getLast?_append_right {α : Type} (l1 l2 : List α) (h : l2 ≠ []) :
    (l1 ++ l2).getLast? = l2.getLast? := by
  induction l1 with
  | nil => rfl
  | cons a as ih =>
    cases hc : as ++ l2 with
    | nil =>
      rcases List.append_eq_nil.mp hc with ⟨_, h2⟩
      exact absurd h2 h
    | cons b rest =>
      simp only [List.cons_append, hc, List.getLast?_cons_cons]
      rw [← hc, ih]

theorem noDS_append (l1 l2 : List Char) (h1 : noDS l1 = true) (h2 : noDS l2 = true)
    (hb : ∀ x y, l1.getLast? = some x → l2.head? = some y →
      (x == '/') = false ∨ (y == '/') = false) :
    noDS (l1 ++ l2) = true := by
  induction l1 with
  | nil => simpa using h2
  | cons a as ih =>
    cases as with
    | nil =>
      cases l2 with
      | nil => rfl
      | cons y ys =>
        have hby := hb a y rfl rfl
        simp only [List.cons_append, List.nil_append, noDS, Bool.and_eq_true,
          Bool.not_eq_true']
        constructor
        · rcases hby with hx | hy
          · simp [hx]
          · simp [hy]
        · exact h2
    | cons b rest =>
      have hstep : noDS (b :: rest) = true := noDS_tail a (b :: rest) h1
      have hab : (a == '/' && b == '/') = false := by
        simp only [noDS, Bool.and_eq_true, Bool.not_eq_true'] at h1
        exact h1.1
      have ihr := ih hstep (fun x y hx hy =>
        hb x y (by rw [List.getLast?_cons_cons]; exact hx) hy)
      simp only [List.cons_append] at ihr ⊢
      simp only [noDS, Bool.and_eq_true, Bool.not_eq_true']
      exact ⟨by simp_all, ihr⟩

theorem httpsStrip_noDS_false (l r : List Char)
    (h : stripPfx "https://dev.azure.com/".data l = some r) : noDS l = false := by
  have hl := stripPfx_sound _ l r h
  subst hl
  simp [noDS]

theorem httpsMatchAt_none_of_noDS (l : List Char) (h : noDS l = true) :
    httpsMatchAt l = none := by
  rw [httpsMatchAt]
  cases hs : stripPfx "https://dev.azure.com/".data l with
  | none => rfl
  | some r => exact absurd h (by simp [httpsStrip_noDS_false l r hs])

theorem searchHttps_none_of_noDS (l : List Char) (h : noDS l = true) :
    searchHttps l = none := by
  induction l with
  | nil => rfl
  | cons c cs ih =>
    rw [searchHttps, httpsMatchAt_none_of_noDS (c :: cs) h]
    exact ih (noDS_tail c cs h)

theorem searchHttps_cons (c : Char) (cs : List Char) (caps : RemoteCaps)
    (h : httpsMatchAt (c :: cs) = some caps) : searchHttps (c :: cs) = some caps := by
  rw [searchHttps, h]

theorem searchSsh_cons (c : Char) (cs : List Char) (caps : RemoteCaps)
    (h : sshMatchAt (c :: cs) = some caps) : searchSsh (c :: cs) = some caps := by
  rw [searchSsh, h]

theorem httpsMatchAt_build (org proj repo : List Char)
    (ho : org ≠ []) (ho2 : ∀ c ∈ org, (c == '/') = false)
    (hp : proj ≠ []) (hp2 : ∀ c ∈ proj, (c == '/') = false)
    (hr : repo ≠ []) (hr2 : ∀ c ∈ repo, (c == '/') = false) :
    httpsMatchAt ("https://dev.azure.com/".data ++
        (org ++ '/' :: (proj ++ '/' :: ('_' :: 'g' :: 'i' :: 't' :: '/' :: repo)))) =
      some ⟨org, proj, repo⟩ := by
  have hto : takeSeg (org ++ '/' :: (proj ++ '/' :: ('_' :: 'g' :: 'i' :: 't' :: '/' :: repo))) = org := by
    apply takeWhile_append_stop _ _ _ _ (fun a ha => by simp [ho2 a ha]) (by simp)
  have hdo : dropSeg (org ++ '/' :: (proj ++ '/' :: ('_' :: 'g' :: 'i' :: 't' :: '/' :: repo))) =
      '/' :: (proj ++ '/' :: ('_' :: 'g' :: 'i' :: 't' :: '/' :: repo)) := by
    apply dropWhile_append_stop _ _ _ _ (fun a ha => by simp [ho2 a ha]) (by simp)
  have htp : takeSeg (proj ++ '/' :: ('_' :: 'g' :: 'i' :: 't' :: '/' :: repo)) = proj := by
    apply takeWhile_append_stop _ _ _ _ (fun a ha => by simp [hp2 a ha]) (by simp)
  have hdp : dropSeg (proj ++ '/' :: ('_' :: 'g' :: 'i' :: 't' :: '/' :: repo)) =
      '/' :: ('_' :: 'g' :: 'i' :: 't' :: '/' :: repo) := by
    apply dropWhile_append_stop _ _ _ _ (fun a ha => by simp [hp2 a ha]) (by simp)
  have hstrip : stripPfx "/_git/".data ('/' :: ('_' :: 'g' :: 'i' :: 't' :: '/' :: repo)) =
      some repo := by
    have he : ('/' :: ('_' :: 'g' :: 'i' :: 't' :: '/' :: repo)) = "/_git/".data ++ repo := by rfl
    rw [he, stripPfx_append]
  have htr : takeSeg repo = repo :=
    takeWhile_all _ repo (fun a ha => by simp [hr2 a ha])
  rw [httpsMatchAt, stripPfx_append]
  simp only [hto, hdo, htp, hdp, hstrip, htr, List.isEmpty_iff]
  simp [ho, hp, hr]

theorem sshMatchAt_build (org proj repo : List Char)
    (ho : org ≠ []) (ho2 : ∀ c ∈ org, (c == '/') = false)
    (ho3 : ∀ c ∈ org, (c == '@') = false)
    (hp : proj ≠ []) (hp2 : ∀ c ∈ proj, (c == '/') = false)
    (hr : repo ≠ []) (hr2 : ∀ c ∈ repo, (c == '/') = false) :
    sshMatchAt (org ++ '@' ::
        ("vs-ssh.visualstudio.com:v3/".data ++ (org ++ '/' :: (proj ++ '/' :: repo)))) =
      some ⟨org, proj, repo⟩ := by
  have hu : (org ++ '@' ::
      ("vs-ssh.visualstudio.com:v3/".data ++ (org ++ '/' :: (proj ++ '/' :: repo)))).takeWhile
        (fun c => !(c == '@')) = org := by
    apply takeWhile_append_stop _ _ _ _ (fun a ha => by simp [ho3 a ha]) (by simp)
  have hd : (org ++ '@' ::
      ("vs-ssh.visualstudio.com:v3/".data ++ (org ++ '/' :: (proj ++ '/' :: repo)))).dropWhile
        (fun c => !(c == '@')) =
      '@' :: ("vs-ssh.visualstudio.com:v3/".data ++ (org ++ '/' :: (proj ++ '/' :: repo))) := by
    apply dropWhile_append_stop _ _ _ _ (fun a ha => by simp [ho3 a ha]) (by simp)
  have hto : takeSeg (org ++ '/' :: (proj ++ '/' :: repo)) = org := by
    apply takeWhile_append_stop _ _ _ _ (fun a ha => by simp [ho2 a ha]) (by simp)
  have hdo : dropSeg (org ++ '/' :: (proj ++ '/' :: repo)) = '/' :: (proj ++ '/' :: repo) := by
    apply dropWhile_append_stop _ _ _ _ (fun a ha => by simp [ho2 a ha]) (by simp)
  have htp : takeSeg (proj ++ '/' :: repo) = proj := by
    apply takeWhile_append_stop _ _ _ _ (fun a ha => by simp [hp2 a ha]) (by simp)
  have hdp : dropSeg (proj ++ '/' :: repo) = '/' :: repo := by
    apply dropWhile_append_stop _ _ _ _ (fun a ha => by simp [hp2 a ha]) (by simp)
  have htr : takeSeg repo = repo :=
    takeWhile_all _ repo (fun a ha => by simp [hr2 a ha])
  rw [sshMatchAt]
  simp only [hu, hd, stripPfx_append, hto, hdo, htp, hdp, htr, List.isEmpty_iff]
  simp [ho, hp, hr]

theorem noDS_ssh (org proj repo : List Char)
    (ho : org ≠ []) (ho2 : ∀ c ∈ org, (c == '/') = false)
    (hp : proj ≠ []) (hp2 : ∀ c ∈ proj, (c == '/') = false)
    (hr2 : ∀ c ∈ repo, (c == '/') = false) :
    noDS (org ++ '@' ::
      ("vs-ssh.visualstudio.com:v3/".data ++ (org ++ '/' :: (proj ++ '/' :: repo)))) = true := by
  have horg : noDS org = true := noDS_of_forall org ho2
  have hCD : noDS ('/' :: (proj ++ '/' :: repo)) = true := by
    have hC : noDS ('/' :: proj) = true := noDS_slash_cons proj hp2
    have hD : noDS ('/' :: repo) = true := noDS_slash_cons repo hr2
    have : ('/' :: (proj ++ '/' :: repo)) = ('/' :: proj) ++ ('/' :: repo) := by simp
    rw [this]
    apply noDS_append _ _ hC hD
    intro x y hx hy
    left
    have hx2 : (('/' :: proj)).getLast? = proj.getLast? := by
      have : ('/' :: proj) = ['/'] ++ proj := rfl
      rw [this, getLast?_append_right _ _ hp]
    rw [hx2] at hx
    exact hp2 x (getLast?_mem_own proj x hx)
  have hB : noDS ('@' :: ("vs-ssh.visualstudio.com:v3/".data ++ org)) = true := by
    have hlit : noDS ('@' :: "vs-ssh.visualstudio.com:v3/".data) = true := by decide
    have : ('@' :: ("vs-ssh.visualstudio.com:v3/".data ++ org)) =
        ('@' :: "vs-ssh.visualstudio.com:v3/".data) ++ org := by simp
    rw [this]
    apply noDS_append _ _ hlit horg
    intro x y hx hy
    right
    exact ho2 y (List.mem_of_mem_head? hy)
  have hBCD : noDS (('@' :: ("vs-ssh.visualstudio.com:v3/".data ++ org)) ++
      ('/' :: (proj ++ '/' :: repo))) = true := by
    apply noDS_append _ _ hB hCD
    intro x y hx hy
    left
    have hx2 : (('@' :: ("vs-ssh.visualstudio.com:v3/".data ++ org))).getLast? =
        org.getLast? := by
      have : ('@' :: ("vs-ssh.visualstudio.com:v3/".data ++ org)) =
          ('@' :: "vs-ssh.visualstudio.com:v3/".data) ++ org := by simp
      rw [this, getLast?_append_right _ _ ho]
    rw [hx2] at hx
    exact ho2 x (getLast?_mem_own org x hx)
  have hfinal := noDS_append org
    (('@' :: ("vs-ssh.visualstudio.com:v3/".data ++ org)) ++ ('/' :: (proj ++ '/' :: repo)))
    horg hBCD (by intro x y hx hy; right; simp at hy; simp [← hy])
  have hshape : org ++ (('@' :: ("vs-ssh.visualstudio.com:v3/".data ++ org)) ++
      ('/' :: (proj ++ '/' :: repo))) =
      org ++ '@' :: ("vs-ssh.visualstudio.com:v3/".data ++ (org ++ '/' :: (proj ++ '/' :: repo))) := by
    simp
  rw [hshape] at hfinal
  exact hfinal

theorem strMk_ne_empty (l : List Char) (h : l ≠ []) : (⟨l⟩ : String) ≠ "" := by
  intro hc
  apply h
  have : (⟨l⟩ : String).data = ("" : String).data := by rw [hc]
  simpa using this

theorem httpsMatchAt_caps_ne (l : List Char) (caps : RemoteCaps)
    (h : httpsMatchAt l = some caps) :
    caps.orgC ≠ [] ∧ caps.projC ≠ [] ∧ caps.repoC ≠ [] := by
  rw [httpsMatchAt] at h
  simp only [List.isEmpty_iff] at h
  repeat' split at h
  all_goals first
    | exact Option.noConfusion h
    | (injection h with h
       subst h
       simp_all)

theorem sshMatchAt_caps_ne (l : List Char) (caps : RemoteCaps)
    (h : sshMatchAt l = some caps) :
    caps.orgC ≠ [] ∧ caps.projC ≠ [] ∧ caps.repoC ≠ [] := by
  rw [sshMatchAt] at h
  simp only [List.isEmpty_iff] at h
  repeat' split at h
  all_goals first
    | exact Option.noConfusion h
    | (injection h with h
       subst h
       simp_all)

theorem searchHttps_caps_ne (l : List Char) (caps : RemoteCaps)
    (h : searchHttps l = some caps) :
    caps.orgC ≠ [] ∧ caps.projC ≠ [] ∧ caps.repoC ≠ [] := by
  induction l with
  | nil => exact Option.noConfusion h
  | cons c cs ih =>
    rw [searchHttps] at h
    split at h
    · next hm => injection h with h; subst h; exact httpsMatchAt_caps_ne _ _ hm
    · exact ih h

theorem searchSsh_caps_ne (l : List Char) (caps : RemoteCaps)
    (h : searchSsh l = some caps) :
    caps.orgC ≠ [] ∧ caps.projC ≠ [] ∧ caps.repoC ≠ [] := by
  induction l with
  | nil => exact Option.noConfusion h
  | cons c cs ih =>
    rw [searchSsh] at h
    split at h
    · next hm => injection h with h; subst h; exact sshMatchAt_caps_ne _ _ hm
    · exact ih h

theorem parse_ok_fields_ne (u : String) (ri : GitRemoteInfo)
    (h : parseAzureDevOpsRemote u = .ok ri) :
    ri.organization ≠ "" ∧ ri.project ≠ "" ∧ ri.repository ≠ "" := by
  rw [parseAzureDevOpsRemote] at h
  split at h
  · next caps hs =>
    obtain ⟨h1, h2, h3⟩ := searchHttps_caps_ne _ _ hs
    split at h
    · next p hp =>
      injection h with h
      subst h
      refine ⟨strMk_ne_empty _ h1, ?_, strMk_ne_empty _ h3⟩
      apply strMk_ne_empty
      cases hc : caps.projC with
      | nil => exact absurd hc h2
      | cons a as => rw [hc] at hp; exact decodeSeq_cons_ne_nil a as p hp
    · exact Except.noConfusion h
  · split at h
    · next caps hs =>
      obtain ⟨h1, h2, h3⟩ := searchSsh_caps_ne _ _ hs
      split at h
      · next p hp =>
        injection h with h
        subst h
        refine ⟨strMk_ne_empty _ h1, ?_, strMk_ne_empty _ h3⟩
        apply strMk_ne_empty
        cases hc : caps.projC with
        | nil => exact absurd hc h2
        | cons a as => rw [hc] at hp; exact decodeSeq_cons_ne_nil a as p hp
      · exact Except.noConfusion h
    · exact Except.noConfusion h

/-!
Section: Pull request search (findPullRequest in src/ado.ts) and config
resolution (claude-review.ts)

The remote service is abstracted as a query function from search criteria
to the list of pull requests it returns, in response order; the searches a
run performs are recorded so that claims about which queries are issued
can be stated.  Environment variables and CLI results are fields of
explicit environment records.
-/

/-- PullRequestStatus of the Azure DevOps SDK. -/
inductive PRStatus where
  | notSet
  | active
  | abandoned
  | completed
  | all
deriving DecidableEq

/-- A pull request as returned by the SDK; pullRequestId is optional
there (GitPullRequest.pullRequestId?: number). -/
structure PullRequest where
  pullRequestId : Option Nat
  sourceRefName : String
  status : PRStatus
  title : String
deriving DecidableEq

/-- Search criteria passed to gitApi.getPullRequests: a sourceRefName and
an optional status filter. -/
structure SearchCriteria where
  sourceRefName : String
  status : Option PRStatus
deriving DecidableEq

/-- findPullRequest (src/ado.ts): query Active pull requests on
refs/heads/branch; when that list is empty repeat the query without the
status filter; return the first result or null.  The first component
records the queries issued, in order. -/
def findPullRequestT (query : SearchCriteria → List PullRequest)
    (branchName : String) : List SearchCriteria × Option PullRequest :=
  let sourceRefName := "refs/heads/" ++ branchName
  let c1 : SearchCriteria := ⟨sourceRefName, some .active⟩
  let first := query c1
  if first.isEmpty then
    let c2 : SearchCriteria := ⟨sourceRefName, none⟩
    let second := query c2
    ([c1, c2], second.head?)
  else
    ([c1], first.head?)

/-- AzureConfig (claude-review.ts). -/
structure AzureConfig where
  token : String
  org : String
  project : String
  repo : String
  prId : String
deriving DecidableEq

/-- The ambient state read by getConfigFromGitAndApi: the
AZURE_DEVOPS_TOKEN variable, the git working tree, the current branch and
remote URL, the parsed --azure-pr option, and the remote query service. -/
structure GitApiEnv where
  token : Option String
  isGitRepo : Bool
  currentBranch : String
  remoteUrl : String
  azurePr : Option String
  query : SearchCriteria → List PullRequest

/-- getConfigFromGitAndApi (claude-review.ts): require a truthy token and
a git repository, parse the remote URL (any error is caught and becomes
null), short-circuit on a truthy --azure-pr, otherwise find the PR for the
current branch and stringify its id (empty string when the id is absent).
The first component records the API searches issued. -/
def getConfigFromGitAndApi (env : GitApiEnv) : List SearchCriteria × Option AzureConfig :=
  match env.token with
  | none => ([], none)
  | some tok =>
    if tok = "" then ([], none)
    else if env.isGitRepo = false then ([], none)
    else
      match parseAzureDevOpsRemote env.remoteUrl with
      | .error _ => ([], none)
      | .ok ri =>
        if optTruthy env.azurePr then
          ([], some ⟨tok, ri.organization, ri.project, ri.repository, env.azurePr.getD ""⟩)
        else
          let fr := findPullRequestT env.query env.currentBranch
          (fr.1, fr.2.map (fun pr =>
            ⟨tok, ri.organization, ri.project, ri.repository,
              (pr.pullRequestId.map (fun n => toString n)).getD ""⟩))

/-- The five environment variables read by getConfigFromEnvVars, plus the
--azure-pr option which takes precedence for the PR id. -/
structure EnvVarsEnv where
  token : Option String
  org : Option String
  project : Option String
  repo : Option String
  prIdEnv : Option String
  azurePr : Option String

/-- getConfigFromEnvVars (claude-review.ts): prId is options.azurePr when
truthy, else AZURE_DEVOPS_PR_ID; null unless all five values are truthy. -/
def getConfigFromEnvVars (e : EnvVarsEnv) : Option AzureConfig :=
  let prId := if optTruthy e.azurePr then e.azurePr else e.prIdEnv
  match e.token, e.org, e.project, e.repo, prId with
  | some t, some o, some p, some r, some pid =>
    if t = "" ∨ o = "" ∨ p = "" ∨ r = "" ∨ pid = "" then none
    else some ⟨t, o, p, r, pid⟩
  | _, _, _, _, _ => none

/-- Anchored match of the organization-extraction pattern
https:\/\/([^\.]+)\.visualstudio\.com used by parseAzurePr. -/
def orgMatchAt (l : List Char) : Option (List Char) :=
  match stripPfx "https://".data l with
  | none => none
  | some r0 =>
    let org := r0.takeWhile (fun c => !(c == '.'))
    if org.isEmpty then none
    else
      match stripPfx ".visualstudio.com".data (r0.dropWhile (fun c => !(c == '.'))) with
      | none => none
      | some _ => some org

/-- Leftmost unanchored search with the organization pattern. -/
def searchOrg : List Char → Option (List Char)
  | [] => none
  | c :: cs =>
    match orgMatchAt (c :: cs) with
    | some r => some r
    | none => searchOrg cs

/-- Organization from a PR url, when the legacy-hostname pattern matches. -/
def orgFromUrl (url2 : String) : Option String :=
  (searchOrg url2.data).map (fun l => (⟨l⟩ : String))

/-- A pull request object as printed by the Azure CLI: the fields
parseAzurePr reads off it. -/
structure PrObj where
  pullRequestId : Nat
  sourceRefName : String
  repositoryName : String
  projectName : String
  url : String
deriving DecidableEq

/-- parseAzurePr (claude-review.ts): stringify the id, copy repository and
project names verbatim, extract the organization from the PR url via the
legacy pattern (warn and return null when it does not match), and require
a truthy AZURE_DEVOPS_TOKEN. -/
def parseAzurePr (token : Option String) (pr : PrObj) : Option AzureConfig :=
  let prId := toString pr.pullRequestId
  match orgFromUrl pr.url with
  | none => none
  | some org =>
    match token with
    | none => none
    | some t => if t = "" then none else some ⟨t, org, pr.projectName, pr.repositoryName, prId⟩

/-- Remove the first occurrence of a pattern from a list (the JS
String.prototype.replace with a string pattern and empty replacement). -/
def removeFirst (pat : List Char) : List Char → List Char
  | [] => []
  | c :: cs =>
    match stripPfx pat (c :: cs) with
    | some r => r
    | none => c :: removeFirst pat cs

/-- sourceRefName.replace("refs/heads/", "") as used by
getConfigFromAzureCli. -/
def stripRefsHeads (s : String) : String :=
  ⟨removeFirst "refs/heads/".data s.data⟩

/-- The ambient state read by getConfigFromAzureCli: availability of the
az CLI, the current branch, the parsed output of az repos pr list (none
when the command or the parse throws), a fetch-by-id service for
az repos pr show, the token and the --azure-pr option. -/
structure CliEnv where
  azAvailable : Bool
  currentBranch : String
  prList : Option (List PrObj)
  fetchById : String → Option PrObj
  token : Option String
  azurePr : Option String

/-- getConfigFromAzureCli (claude-review.ts): list active PRs via the CLI;
on an empty list fall back to fetching a truthy --azure-pr by id; otherwise
search the list for the PR whose source branch (refs/heads/ stripped)
equals the current branch, and only when none matches fall back to the
--azure-pr fetch; every thrown error is caught and becomes null. -/
def getConfigFromAzureCli (env : CliEnv) : Option AzureConfig :=
  if env.azAvailable = false then none
  else
    match env.prList with
    | none => none
    | some prs =>
      if prs.length = 0 then
        match env.azurePr with
        | some pid =>
          if pid = "" then none
          else
            match env.fetchById pid with
            | none => none
            | some pr => parseAzurePr env.token pr
        | none => none
      else
        match prs.find? (fun pr => stripRefsHeads pr.sourceRefName == env.currentBranch) with
        | some matchingPr => parseAzurePr env.token matchingPr
        | none =>
          match env.azurePr with
          | some pid =>
            if pid = "" then none
            else
              match env.fetchById pid with
              | none => none
              | some pr => parseAzurePr env.token pr
          | none => none

/-- getAzureDevOpsConfig (claude-review.ts): with --use-env-vars go
straight to the environment variables; otherwise try git + API, then the
Azure CLI, then the environment variables. -/
def getAzureDevOpsConfig (useEnvVars : Bool) (ge : GitApiEnv) (ce : CliEnv)
    (ee : EnvVarsEnv) : Option AzureConfig :=
  if useEnvVars then getConfigFromEnvVars ee
  else
    match (getConfigFromGitAndApi ge).2 with
    | some c => some c
    | none =>
      match getConfigFromAzureCli ce with
      | some c => some c
      | none => getConfigFromEnvVars ee

/-!
Section: Comment reconciliation (claude-review.ts lines 712-872)

findExistingClaudeComment lists the comment threads of the PR over HTTP;
a thrown transport error or a non-2xx status yields null.  Otherwise the
first thread whose first comment content contains the marker heading is
returned.  postToAzureDevOps composes the body and issues one POST
(createNewComment) or one PATCH (updateExistingComment); the model
returns the list of those calls, in order, together with the action label
the source reports on success.
-/

/-- The marker heading searched for and prepended by the source. -/
def claudeMarker : String := "# Claude Code Review"

/-- A comment of a thread as parsed from the REST response; content is
optional there. -/
structure ThreadComment where
  id : String
  content : Option String
deriving DecidableEq

/-- A comment thread as parsed from the REST response. -/
structure CommentThread where
  id : String
  comments : List ThreadComment
deriving DecidableEq

/-- Outcome of the thread-listing GET in findExistingClaudeComment: a
thrown network or parse error, or a status code with the parsed thread
list (threads.value || []). -/
inductive SearchOutcome where
  | err
  | ok (statusCode : Nat) (threads : List CommentThread)

/-- ExistingComment (claude-review.ts). -/
structure ExistingComment where
  threadId : String
  commentId : String
  existingContent : String
deriving DecidableEq

/-- The thread loop of findExistingClaudeComment: the first thread with a
nonempty comment list whose first comment has content containing the
marker. -/
def findMarked : List CommentThread → Option ExistingComment
  | [] => none
  | t :: ts =>
    match t.comments with
    | [] => findMarked ts
    | c :: _ =>
      match c.content with
      | none => findMarked ts
      | some content =>
        if jsIncludes content claudeMarker then some ⟨t.id, c.id, content⟩
        else findMarked ts

/-- findExistingClaudeComment (claude-review.ts): swallow transport
errors; require a 2xx status; then scan the threads for the marker. -/
def findExistingClaudeComment (outcome : SearchOutcome) : Option ExistingComment :=
  match outcome with
  | .err => none
  | .ok statusCode threads =>
    if 200 ≤ statusCode ∧ statusCode < 300 then findMarked threads
    else none

/-- An HTTP write issued while posting: a PATCH of a thread comment
(updateExistingComment, carrying the thread id the source passes) or a
POST of a new thread (createNewComment), each with the sent content. -/
inductive HttpCall where
  | patch (threadId : String) (content : String)
  | post (content : String)
deriving DecidableEq

/-- The sent body of a call. -/
def HttpCall.content : HttpCall → String
  | .patch _ c => c
  | .post c => c

/-- postToAzureDevOps (claude-review.ts): in --new-comment mode POST a
fresh marker-headed body; otherwise search for the existing marked
comment, PATCH it with either the appended or the replaced body, and POST
a fresh body when none is found.  Returns the issued PATCH/POST calls in
order together with the reported action label. -/
def postToAzureDevOps (newComment append : Bool) (outcome : SearchOutcome)
    (reviewContent : String) : List HttpCall × String :=
  if newComment then
    ([.post ("# Claude Code Review\n\n" ++ reviewContent)], "posted as new comment")
  else
    match findExistingClaudeComment outcome with
    | some existingComment =>
      if append then
        ([.patch existingComment.threadId
            (existingComment.existingContent ++ "\n\n---\n\n**Updated Review:**\n\n" ++ reviewContent)],
          "appended to existing comment")
      else
        ([.patch existingComment.threadId ("# Claude Code Review\n\n" ++ reviewContent)],
          "updated existing comment")
    | none =>
      ([.post ("# Claude Code Review\n\n" ++ reviewContent)], "posted new comment")

theorem findMarked_content_marked (ts : List CommentThread) (ec : ExistingComment)
    (h : findMarked ts = some ec) : jsIncludes ec.existingContent claudeMarker = true := by
  induction ts with
  | nil => exact Option.noConfusion h
  | cons t rest ih =>
    rw [findMarked] at h
    split at h
    · exact ih h
    · split at h
      · exact ih h
      · split at h
        · next hm =>
          injection h with h
          subst h
          exact hm
        · exact ih h

theorem findExisting_content_marked (outcome : SearchOutcome) (ec : ExistingComment)
    (h : findExistingClaudeComment outcome = some ec) :
    jsIncludes ec.existingContent claudeMarker = true := by
  cases outcome with
  | err => exact Option.noConfusion h
  | ok s ts =>
    rw [findExistingClaudeComment] at h
    split at h
    · exact findMarked_content_marked ts ec h
    · exact Option.noConfusion h

/-!
Section: Generic support lemmas used by the claim theorems
-/

theorem strData_append (a b : String) : (a ++ b).data = a.data ++ b.data := rfl

theorem strAppend_assoc (a b c : String) : (a ++ b) ++ c = a ++ (b ++ c) := by
  show (⟨(a.data ++ b.data) ++ c.data⟩ : String) = ⟨a.data ++ (b.data ++ c.data)⟩
  rw [List.append_assoc]

theorem jsStartsWith_self_append (p r : String) : jsStartsWith (p ++ r) p = true := by
  rw [jsStartsWith, strData_append]
  exact isPfx_append p.data r.data

theorem containsSeq_nil_pat (l : List Char) : containsSeq l [] = true := by
  cases l with
  | nil => rfl
  | cons c cs => simp [containsSeq, isPfx]

theorem jsIncludes_self_append (p r : String) : jsIncludes (p ++ r) p = true := by
  rw [jsIncludes, strData_append]
  cases hp : p.data with
  | nil => simp [hp, containsSeq_nil_pat]
  | cons c cs =>
    rw [← hp]
    have h1 : isPfx p.data (p.data ++ r.data) = true := isPfx_append p.data r.data
    rw [hp] at h1 ⊢
    simp only [List.cons_append] at h1 ⊢
    simp [containsSeq, h1]

theorem jsIncludes_append_right (a b pat : String) (h : jsIncludes a pat = true) :
    jsIncludes (a ++ b) pat = true := by
  rw [jsIncludes, strData_append]
  exact containsSeq_append_left a.data b.data pat.data h

theorem toDigitsCore_length_le (b : Nat) (fuel : Nat) :
    ∀ n ds, (Nat.toDigitsCore b fuel n ds).length ≥ ds.length := by
  induction fuel with
  | zero => intro n ds; simp [Nat.toDigitsCore]
  | succ f ih =>
    intro n ds
    rw [Nat.toDigitsCore]
    split
    · simp
    · calc ds.length ≤ (Nat.digitChar (n % b) :: ds).length := by simp
        _ ≤ _ := ih (n / b) (Nat.digitChar (n % b) :: ds)

theorem natToString_ne_empty (n : Nat) : toString n ≠ "" := by
  have h1 : toString n = (Nat.toDigits 10 n).asString := rfl
  have h2 : Nat.toDigits 10 n = Nat.toDigitsCore 10 (n + 1) n [] := rfl
  have h3 : (Nat.toDigitsCore 10 (n + 1) n []).length ≥ 1 := by
    rw [Nat.toDigitsCore]
    split
    · simp
    · calc 1 = ([Nat.digitChar (n % 10)] : List Char).length := by simp
        _ ≤ _ := toDigitsCore_length_le 10 n (n / 10) [Nat.digitChar (n % 10)]
  intro hc
  have h4 : (toString n).data = ("" : String).data := by rw [hc]
  rw [h1, h2] at h4
  have h5 : (Nat.toDigitsCore 10 (n + 1) n []).length = 0 := by
    have : (Nat.toDigitsCore 10 (n + 1) n []).asString.data = Nat.toDigitsCore 10 (n + 1) n [] := rfl
    rw [this] at h4
    simp [h4]
  omega

theorem searchOrg_ne_nil (l o : List Char) (h : searchOrg l = some o) : o ≠ [] := by
  induction l with
  | nil => exact Option.noConfusion h
  | cons c cs ih =>
    rw [searchOrg] at h
    split at h
    · next hm =>
      injection h with h
      subst h
      rw [orgMatchAt] at hm
      simp only [List.isEmpty_iff] at hm
      repeat' split at hm
      all_goals first
        | exact Option.noConfusion hm
        | (injection hm with hm; subst hm; simp_all)
    · exact ih h

/-!
Section: Claim theorems
-/

/-- C8: for every diff consisting of a lock-file header (a diff --git line
naming package-lock.json) followed by the change lines of that segment and
then the diff segment of an unrelated file, the sanitizer outputs exactly
the lines of the unrelated segment, dropping the whole lock-file segment including
its header. -/
theorem claim_C8_sanitizer_drops_lockfile_segment
    (lockHeader otherHeader : String) (lockBody otherBody : List String)
    (h1 : jsStartsWith lockHeader "diff --git" = true)
    (h2 : ∃ lf ∈ lockFiles, jsIncludes lockHeader lf = true)
    (h3 : ∀ l ∈ lockBody, jsStartsWith l "diff --git" = false)
    (h4 : jsStartsWith otherHeader "diff --git" = true)
    (h5 : ∀ lf ∈ lockFiles, jsIncludes otherHeader lf = false)
    (h6 : ∀ l ∈ otherBody, jsStartsWith l "diff --git" = false) :
    sanitizeGo (lockHeader :: (lockBody ++ otherHeader :: otherBody)) false =
      otherHeader :: otherBody := by
  have hlock : isLockHeader lockHeader = true := by
    rw [isLockHeader, List.any_eq_true]
    obtain ⟨lf, hmem, hinc⟩ := h2
    exact ⟨lf, hmem, hinc⟩
  have hother : isLockHeader otherHeader = false := by
    rw [isLockHeader]
    rw [List.any_eq_false]
    intro lf hmem
    simp [h5 lf hmem]
  rw [sanitizeGo_header lockHeader (lockBody ++ otherHeader :: otherBody) false h1]
  rw [if_pos hlock]
  rw [sanitizeGo_nonheaders_skip lockBody h3 (otherHeader :: otherBody)]
  rw [sanitizeGo_header otherHeader otherBody true h4]
  rw [if_neg (by simp [hother])]
  have hkeep := sanitizeGo_nonheaders_keep otherBody h6 []
  rw [List.append_nil] at hkeep
  rw [hkeep]
  simp [sanitizeGo]

/-- C8 witness: a concrete package-lock.json segment followed by an
unrelated file segment keeps exactly the unrelated lines. -/
theorem claim_C8_witness :
    sanitizeGo
      ("diff --git a/package-lock.json b/package-lock.json" ::
        (["index 1..2 100644", "-  \"v\": 1", "+  \"v\": 2"] ++
          "diff --git a/src/app.ts b/src/app.ts" :: ["-old line", "+new line"])) false =
      "diff --git a/src/app.ts b/src/app.ts" :: ["-old line", "+new line"] :=
  claim_C8_sanitizer_drops_lockfile_segment
    "diff --git a/package-lock.json b/package-lock.json"
    "diff --git a/src/app.ts b/src/app.ts"
    ["index 1..2 100644", "-  \"v\": 1", "+  \"v\": 2"]
    ["-old line", "+new line"]
    (by decide) (by decide) (by decide) (by decide) (by decide) (by decide)

/-- C9: the sanitizer decides the fate of a segment by whether its diff --git
header contains one of the nine fixed lock-file names anywhere as a
substring, so a header merely embedding such a name in a longer path is
also dropped, and the skip state set by the header persists for every
following non-header line (regardless of the state before the header). -/
theorem claim_C9_substring_match_and_skip_persistence
    (header : String) (body tail : List String) (skip0 : Bool)
    (hh : jsStartsWith header "diff --git" = true)
    (hl : ∃ lf ∈ lockFiles, jsIncludes header lf = true)
    (hb : ∀ l ∈ body, jsStartsWith l "diff --git" = false) :
    lockFiles.length = 9 ∧
    sanitizeGo (header :: (body ++ tail)) skip0 = sanitizeGo tail true := by
  refine ⟨rfl, ?_⟩
  have hlock : isLockHeader header = true := by
    rw [isLockHeader, List.any_eq_true]
    obtain ⟨lf, hmem, hinc⟩ := hl
    exact ⟨lf, hmem, hinc⟩
  rw [sanitizeGo_header header (body ++ tail) skip0 hh]
  rw [if_pos hlock]
  exact sanitizeGo_nonheaders_skip body hb tail

/-- C9 witness: a header whose path merely embeds package-lock.json
(vendor/package-lock.json.bak) is dropped with its whole segment, from
either initial skip state. -/
theorem claim_C9_witness :
    lockFiles.length = 9 ∧
    sanitizeGo
      ("diff --git a/vendor/package-lock.json.bak b/vendor/package-lock.json.bak" ::
        (["-a", "+b"] ++ [])) false = sanitizeGo [] true :=
  claim_C9_substring_match_and_skip_persistence
    "diff --git a/vendor/package-lock.json.bak b/vendor/package-lock.json.bak"
    ["-a", "+b"] [] false (by decide) (by decide) (by decide)

/-- C2: outside new-comment mode, a found marked comment produces exactly
one PATCH (and no POST) whose append-mode body literally equals the
existing content, a separator, an Updated Review sub-heading and the new
review text; an absent marked comment produces exactly one POST (and no
PATCH). -/
theorem claim_C2_one_patch_or_one_post (app : Bool) (outcome : SearchOutcome)
    (review : String) :
    (∀ ec, findExistingClaudeComment outcome = some ec →
      postToAzureDevOps false app outcome review =
        ([HttpCall.patch ec.threadId
            (if app then ec.existingContent ++ "\n\n---\n\n**Updated Review:**\n\n" ++ review
             else "# Claude Code Review\n\n" ++ review)],
          if app then "appended to existing comment" else "updated existing comment"))
    ∧ (findExistingClaudeComment outcome = none →
      postToAzureDevOps false app outcome review =
        ([HttpCall.post ("# Claude Code Review\n\n" ++ review)], "posted new comment")) := by
  constructor
  · intro ec hec
    rw [postToAzureDevOps, if_neg (by simp), hec]
    cases app <;> simp
  · intro hnone
    rw [postToAzureDevOps, if_neg (by simp), hnone]

/-- C2 witness: a thread list carrying the marker is PATCHed with the
appended body; an error outcome leads to a single POST. -/
theorem claim_C2_witness :
    postToAzureDevOps false true
        (.ok 200 [⟨"42", [⟨"1", some "# Claude Code Review\n\nOld"⟩]⟩]) "New" =
      ([HttpCall.patch "42" ("# Claude Code Review\n\nOld" ++
          "\n\n---\n\n**Updated Review:**\n\n" ++ "New")], "appended to existing comment")
    ∧ postToAzureDevOps false true .err "New" =
      ([HttpCall.post ("# Claude Code Review\n\n" ++ "New")], "posted new comment") := by
  constructor
  · exact ((claim_C2_one_patch_or_one_post true
      (.ok 200 [⟨"42", [⟨"1", some "# Claude Code Review\n\nOld"⟩]⟩]) "New").1
      ⟨"42", "1", "# Claude Code Review\n\nOld"⟩ (by rfl))
  · exact ((claim_C2_one_patch_or_one_post true .err "New").2 (by rfl))

/-- C5: when the thread-listing search throws or returns a non-2xx
status, the failure is swallowed as no existing comment found and the
posting flow issues exactly one POST creating a new thread. -/
theorem claim_C5_search_failure_falls_through_to_create
    (outcome : SearchOutcome) (app : Bool) (review : String)
    (h : outcome = .err ∨
      ∃ s ts, outcome = .ok s ts ∧ ¬(200 ≤ s ∧ s < 300)) :
    findExistingClaudeComment outcome = none ∧
    postToAzureDevOps false app outcome review =
      ([HttpCall.post ("# Claude Code Review\n\n" ++ review)], "posted new comment") := by
  have hnone : findExistingClaudeComment outcome = none := by
    rcases h with h | ⟨s, ts, hok, hs⟩
    · rw [h]; rfl
    · rw [hok, findExistingClaudeComment, if_neg hs]
  refine ⟨hnone, ?_⟩
  rw [postToAzureDevOps, if_neg (by simp), hnone]

/-- C5 witness: a 500 response is treated as no comment found and creates
a new thread. -/
theorem claim_C5_witness :
    findExistingClaudeComment (.ok 500 [⟨"7", [⟨"1", some "# Claude Code Review\n\nOld"⟩]⟩]) = none ∧
    postToAzureDevOps false false (.ok 500 [⟨"7", [⟨"1", some "# Claude Code Review\n\nOld"⟩]⟩]) "R" =
      ([HttpCall.post ("# Claude Code Review\n\n" ++ "R")], "posted new comment") :=
  claim_C5_search_failure_falls_through_to_create
    (.ok 500 [⟨"7", [⟨"1", some "# Claude Code Review\n\nOld"⟩]⟩]) false "R"
    (Or.inr ⟨500, [⟨"7", [⟨"1", some "# Claude Code Review\n\nOld"⟩]⟩], rfl, by omega⟩)

/-- C10: every body this tool sends contains the marker heading: in
new-comment mode, replace mode and the create-when-none-found case the
body begins with the marker followed by a blank line, and the append-mode
body starts with the existing content, which the search only returns when
it contains the marker. -/
theorem claim_C10_every_posted_body_carries_marker (nc app : Bool)
    (outcome : SearchOutcome) (review : String) :
    (∀ call ∈ (postToAzureDevOps nc app outcome review).1,
      jsIncludes (HttpCall.content call) claudeMarker = true)
    ∧ ((nc = true ∨ app = false ∨ findExistingClaudeComment outcome = none) →
      ∀ call ∈ (postToAzureDevOps nc app outcome review).1,
        jsStartsWith (HttpCall.content call) ("# Claude Code Review" ++ "\n\n") = true) := by
  have hfresh : ("# Claude Code Review\n\n" ++ review) =
      claudeMarker ++ ("\n\n" ++ review) := by
    rw [claudeMarker, ← strAppend_assoc]
    rfl
  have hfreshContains : jsIncludes ("# Claude Code Review\n\n" ++ review) claudeMarker = true := by
    rw [hfresh]
    exact jsIncludes_self_append claudeMarker ("\n\n" ++ review)
  have hfreshStarts : jsStartsWith ("# Claude Code Review\n\n" ++ review)
      ("# Claude Code Review" ++ "\n\n") = true := by
    have he : ("# Claude Code Review\n\n" ++ review) =
        ("# Claude Code Review" ++ "\n\n") ++ review := by
      rw [strAppend_assoc]
      rfl
    rw [he]
    exact jsStartsWith_self_append _ review
  constructor
  · intro call hcall
    rw [postToAzureDevOps] at hcall
    cases nc with
    | true =>
      simp only [if_pos, List.mem_singleton] at hcall
      rw [hcall]
      exact hfreshContains
    | false =>
      rcases hex : findExistingClaudeComment outcome with _ | ec
      all_goals rw [hex] at hcall
      · simp only [Bool.false_eq_true, if_false, List.mem_singleton] at hcall
        rw [hcall]
        exact hfreshContains
      · cases app with
        | true =>
          simp only [Bool.false_eq_true, if_false, if_pos, List.mem_singleton] at hcall
          rw [hcall]
          have hm := findExisting_content_marked outcome ec hex
          exact jsIncludes_append_right _ review claudeMarker
            (jsIncludes_append_right _ "\n\n---\n\n**Updated Review:**\n\n" claudeMarker hm)
        | false =>
          simp only [Bool.false_eq_true, if_false, List.mem_singleton] at hcall
          rw [hcall]
          exact hfreshContains
  · intro hmode call hcall
    rw [postToAzureDevOps] at hcall
    cases nc with
    | true =>
      simp only [if_pos, List.mem_singleton] at hcall
      rw [hcall]
      exact hfreshStarts
    | false =>
      rcases hex : findExistingClaudeComment outcome with _ | ec
      all_goals rw [hex] at hcall
      · simp only [Bool.false_eq_true, if_false, List.mem_singleton] at hcall
        rw [hcall]
        exact hfreshStarts
      · cases app with
        | true =>
          rcases hmode with hmode | hmode | hmode
          · exact Bool.noConfusion hmode.symm
          · exact Bool.noConfusion hmode
          · rw [hmode] at hex
            exact Option.noConfusion hex
        | false =>
          simp only [Bool.false_eq_true, if_false, List.mem_singleton] at hcall
          rw [hcall]
          exact hfreshStarts

/-- C10 witness: the marker is carried both by a fresh creation body and
by an append-mode PATCH body. -/
theorem claim_C10_witness :
    (∀ call ∈ (postToAzureDevOps false true
        (.ok 201 [⟨"9", [⟨"1", some "intro # Claude Code Review tail"⟩]⟩]) "R2").1,
      jsIncludes (HttpCall.content call) claudeMarker = true)
    ∧ (∀ call ∈ (postToAzureDevOps true false .err "R3").1,
      jsStartsWith (HttpCall.content call) ("# Claude Code Review" ++ "\n\n") = true) :=
  ⟨(claim_C10_every_posted_body_carries_marker false true
      (.ok 201 [⟨"9", [⟨"1", some "intro # Claude Code Review tail"⟩]⟩]) "R2").1,
    (claim_C10_every_posted_body_carries_marker true false .err "R3").2 (Or.inl rfl)⟩

/-- C1: findPullRequest first queries Active pull requests on
refs/heads/branch; exactly when that list is empty it repeats the
identical query without the status filter; the result is none when both
lists are empty and otherwise the first pull request in response order;
and getConfigFromGitAndApi then returns the stringified numeric id of the
selected pull request as prId. -/
theorem claim_C1_find_pull_request_and_stringified_id
    (q : SearchCriteria → List PullRequest) (branch : String) (env : GitApiEnv)
    (tok : String) (ri : GitRemoteInfo)
    (h1 : env.token = some tok) (h2 : tok ≠ "") (h3 : env.isGitRepo = true)
    (h4 : parseAzureDevOpsRemote env.remoteUrl = .ok ri)
    (h5 : optTruthy env.azurePr = false) :
    ((findPullRequestT q branch).1 =
      (if (q ⟨"refs/heads/" ++ branch, some .active⟩).isEmpty then
        [⟨"refs/heads/" ++ branch, some .active⟩, ⟨"refs/heads/" ++ branch, none⟩]
       else [⟨"refs/heads/" ++ branch, some .active⟩]))
    ∧ ((findPullRequestT q branch).2 =
      (if (q ⟨"refs/heads/" ++ branch, some .active⟩).isEmpty then
        (q ⟨"refs/heads/" ++ branch, none⟩).head?
       else (q ⟨"refs/heads/" ++ branch, some .active⟩).head?))
    ∧ (q ⟨"refs/heads/" ++ branch, some .active⟩ = [] →
       q ⟨"refs/heads/" ++ branch, none⟩ = [] →
       (findPullRequestT q branch).2 = none)
    ∧ (∀ pr n, (findPullRequestT env.query env.currentBranch).2 = some pr →
        pr.pullRequestId = some n →
        (getConfigFromGitAndApi env).2 =
          some ⟨tok, ri.organization, ri.project, ri.repository, toString n⟩) := by
  refine ⟨?_, ?_, ?_, ?_⟩
  · rw [findPullRequestT]
    by_cases he : (q ⟨"refs/heads/" ++ branch, some .active⟩).isEmpty <;> simp [he]
  · rw [findPullRequestT]
    by_cases he : (q ⟨"refs/heads/" ++ branch, some .active⟩).isEmpty <;> simp [he]
  · intro ha hb
    rw [findPullRequestT]
    simp [ha, hb]
  · intro pr n hfind hid
    rw [getConfigFromGitAndApi, h1]
    simp only [if_neg h2, h3, Bool.true_eq_false, if_false, h4, h5, Bool.false_eq_true]
    rw [hfind]
    simp [hid]

/-- The query service of the C1 witness: no Active pull request for the
branch, one completed pull request with id 7 when the status filter is
dropped. -/
def queryW : SearchCriteria → List PullRequest := fun c =>
  match c.status with
  | some _ => []
  | none => [⟨some 7, "refs/heads/b", .completed, "done"⟩]

/-- The environment of the C1 witness. -/
def envW : GitApiEnv :=
  ⟨some "tk", true, "b", "https://dev.azure.com/o/p/_git/r", none, queryW⟩

/-- C1 witness: on the concrete service the Active query comes first, the
unfiltered retry follows because it was empty, the completed PR is chosen
and its id is stringified into the config. -/
theorem claim_C1_witness :
    (findPullRequestT queryW "b").1 =
      [⟨"refs/heads/b", some .active⟩, ⟨"refs/heads/b", none⟩]
    ∧ (getConfigFromGitAndApi envW).2 = some ⟨"tk", "o", "p", "r", "7"⟩ := by
  have hc := claim_C1_find_pull_request_and_stringified_id queryW "b" envW
    "tk" ⟨"o", "p", "r"⟩ rfl (by decide) rfl (by rfl) rfl
  constructor
  · rw [hc.1]
    rfl
  · exact hc.2.2.2 ⟨some 7, "refs/heads/b", .completed, "done"⟩ 7 rfl rfl

/-- An active pull request on branch feature with id 7, as listed by the
CLI, for the C3 counterexample. -/
def prObjBranch : PrObj :=
  ⟨7, "refs/heads/feature", "repo1", "proj1",
    "https://myorg.visualstudio.com/proj1/_apis/git/repositories/r/pullRequests/7"⟩

/-- CLI environment of the C3 counterexample: the user passed
--azure-pr 999 while PR 7 is open for the current branch. -/
def cliEnvOverride : CliEnv :=
  ⟨true, "feature", some [prObjBranch], fun _ => none, some "tok", some "999"⟩

/-- C3 counterexample: with an explicit PR id 999 supplied, the Azure CLI
strategy still runs the branch-matching search and returns the matching
listed PR with prId 7, not the supplied id. -/
theorem claim_C3_counterexample :
    cliEnvOverride.azurePr = some "999"
    ∧ getConfigFromAzureCli cliEnvOverride = some ⟨"tok", "myorg", "proj1", "repo1", "7"⟩
    ∧ ("7" : String) ≠ "999" := by
  refine ⟨rfl, by rfl, by decide⟩

/-- C3 amended: an explicit PR id short-circuits the git+API strategy,
which issues no search and returns the id verbatim; the Azure CLI strategy
however always runs its listing and branch-matching search first, a
matching PR takes precedence over the supplied id, and the supplied id is
only fetched when the listing is empty or nothing matches the branch. -/
theorem claim_C3_amended :
    (∀ (env : GitApiEnv) (tok pid : String) (ri : GitRemoteInfo),
      env.token = some tok → tok ≠ "" → env.isGitRepo = true →
      parseAzureDevOpsRemote env.remoteUrl = .ok ri →
      env.azurePr = some pid → pid ≠ "" →
      getConfigFromGitAndApi env =
        ([], some ⟨tok, ri.organization, ri.project, ri.repository, pid⟩))
    ∧ (∀ (cenv : CliEnv) (prs : List PrObj) (m : PrObj),
      cenv.azAvailable = true → cenv.prList = some prs →
      prs.find? (fun pr => stripRefsHeads pr.sourceRefName == cenv.currentBranch) = some m →
      getConfigFromAzureCli cenv = parseAzurePr cenv.token m)
    ∧ (∀ (cenv : CliEnv) (prs : List PrObj) (pid : String),
      cenv.azAvailable = true → cenv.prList = some prs → prs ≠ [] →
      prs.find? (fun pr => stripRefsHeads pr.sourceRefName == cenv.currentBranch) = none →
      cenv.azurePr = some pid → pid ≠ "" →
      getConfigFromAzureCli cenv =
        (match cenv.fetchById pid with
         | none => none
         | some pr => parseAzurePr cenv.token pr)) := by
  refine ⟨?_, ?_, ?_⟩
  · intro env tok pid ri h1 h2 h3 h4 h5 h6
    rw [getConfigFromGitAndApi, h1]
    have htruthy : optTruthy env.azurePr = true := by
      rw [h5, optTruthy]
      simp [h6]
    simp only [if_neg h2, h3, Bool.true_eq_false, if_false, h4, htruthy, if_pos]
    rw [h5]
    rfl
  · intro cenv prs m h1 h2 hfind
    have hne : prs.length ≠ 0 := by
      intro hz
      rw [List.length_eq_zero] at hz
      rw [hz] at hfind
      exact Option.noConfusion hfind
    rw [getConfigFromAzureCli, h1]
    simp only [Bool.true_eq_false, if_false]
    rw [h2]
    simp only [if_neg hne]
    rw [hfind]
  · intro cenv prs pid h1 h2 hne hfind h5 h6
    have hlen : prs.length ≠ 0 := by
      intro hz
      exact hne (List.length_eq_zero.mp hz)
    rw [getConfigFromAzureCli, h1]
    simp only [Bool.true_eq_false, if_false]
    rw [h2]
    simp only [if_neg hlen]
    rw [hfind, h5]
    simp only [if_neg h6]

/-- Git+API environment of the C3 witness: --azure-pr 55 short-circuits
the search. -/
def envExplicitPr : GitApiEnv :=
  ⟨some "tk", true, "b", "https://dev.azure.com/o/p/_git/r", some "55", queryW⟩

/-- CLI environment of the C3 witness fallback case: an empty branch
match and --azure-pr 12 fetched by id. -/
def cliEnvFallback : CliEnv :=
  ⟨true, "other",
    some [⟨3, "refs/heads/feature", "r3", "p3", "https://o3.visualstudio.com/x"⟩],
    fun pid =>
      if pid = "12" then
        some ⟨12, "refs/heads/zzz", "r12", "p12", "https://o12.visualstudio.com/x"⟩
      else none,
    some "tk2", some "12"⟩

/-- C3 amended witness: the git+API strategy returns the supplied id 55
verbatim with no searches; the CLI strategy prefers the branch match of
cliEnvOverride over the supplied 999; and in cliEnvFallback the
unmatched supplied id 12 is fetched by id. -/
theorem claim_C3_amended_witness :
    getConfigFromGitAndApi envExplicitPr = ([], some ⟨"tk", "o", "p", "r", "55"⟩)
    ∧ getConfigFromAzureCli cliEnvOverride = parseAzurePr (some "tok") prObjBranch
    ∧ getConfigFromAzureCli cliEnvFallback = parseAzurePr (some "tk2")
        ⟨12, "refs/heads/zzz", "r12", "p12", "https://o12.visualstudio.com/x"⟩ := by
  refine ⟨?_, ?_, ?_⟩
  · exact claim_C3_amended.1 envExplicitPr "tk" "55" ⟨"o", "p", "r"⟩ rfl (by decide) rfl
      (by rfl) rfl (by decide)
  · exact claim_C3_amended.2.1 cliEnvOverride [prObjBranch] prObjBranch rfl rfl (by rfl)
  · have h := claim_C3_amended.2.2 cliEnvFallback
      [⟨3, "refs/heads/feature", "r3", "p3", "https://o3.visualstudio.com/x"⟩] "12"
      rfl rfl (by decide) (by rfl) rfl (by decide)
    rw [h]
    rfl

theorem envVars_fields_ne (e : EnvVarsEnv) (cfg : AzureConfig)
    (h : getConfigFromEnvVars e = some cfg) :
    cfg.token ≠ "" ∧ cfg.org ≠ "" ∧ cfg.project ≠ "" ∧ cfg.repo ≠ "" ∧ cfg.prId ≠ "" := by
  rw [getConfigFromEnvVars] at h
  repeat' split at h
  all_goals first
    | exact Option.noConfusion h
    | (injection h with h
       subst h
       push_neg at *
       simp_all)

theorem parseAzurePr_fields_ne (token : Option String) (pr : PrObj) (cfg : AzureConfig)
    (h : parseAzurePr token pr = some cfg) :
    cfg.token ≠ "" ∧ cfg.org ≠ "" ∧ cfg.prId ≠ "" := by
  rw [parseAzurePr] at h
  split at h
  · exact Option.noConfusion h
  · next org horg =>
    split at h
    · exact Option.noConfusion h
    · next t =>
      split at h
      · exact Option.noConfusion h
      · next ht =>
        injection h with h
        subst h
        refine ⟨ht, ?_, natToString_ne_empty pr.pullRequestId⟩
        rw [orgFromUrl] at horg
        obtain ⟨l, hl, horg2⟩ := Option.map_eq_some'.mp horg
        rw [← horg2]
        exact strMk_ne_empty l (searchOrg_ne_nil pr.url.data l hl)

theorem gitApi_fields_ne (env : GitApiEnv) (cfg : AzureConfig)
    (h : (getConfigFromGitAndApi env).2 = some cfg) :
    cfg.token ≠ "" ∧ cfg.org ≠ "" ∧ cfg.project ≠ "" ∧ cfg.repo ≠ "" := by
  rw [getConfigFromGitAndApi] at h
  split at h
  · exact Option.noConfusion h
  · next tok =>
    split at h
    · exact Option.noConfusion h
    · next htok =>
      split at h
      · exact Option.noConfusion h
      · split at h
        · exact Option.noConfusion h
        · next ri hri =>
          obtain ⟨hro, hrp, hrr⟩ := parse_ok_fields_ne env.remoteUrl ri hri
          split at h
          · injection h with h
            subst h
            exact ⟨htok, hro, hrp, hrr⟩
          · simp only at h
            obtain ⟨pr, _, hpr⟩ := Option.map_eq_some'.mp h
            subst hpr
            exact ⟨htok, hro, hrp, hrr⟩

theorem azureCli_fields_ne (cenv : CliEnv) (cfg : AzureConfig)
    (h : getConfigFromAzureCli cenv = some cfg) :
    cfg.token ≠ "" ∧ cfg.org ≠ "" ∧ cfg.prId ≠ "" := by
  rw [getConfigFromAzureCli] at h
  repeat' split at h
  all_goals first
    | exact Option.noConfusion h
    | exact parseAzurePr_fields_ne _ _ _ h

theorem resolution_fields_ne (useEnvVars : Bool) (ge : GitApiEnv) (ce : CliEnv)
    (ee : EnvVarsEnv) (cfg : AzureConfig)
    (h : getAzureDevOpsConfig useEnvVars ge ce ee = some cfg) :
    cfg.token ≠ "" ∧ cfg.org ≠ "" := by
  rw [getAzureDevOpsConfig] at h
  split at h
  · obtain ⟨h1, h2, _⟩ := envVars_fields_ne ee cfg h
    exact ⟨h1, h2⟩
  · split at h
    · next c hc =>
      injection h with h
      subst h
      obtain ⟨h1, h2, _⟩ := gitApi_fields_ne ge c hc
      exact ⟨h1, h2⟩
    · split at h
      · next c hc =>
        injection h with h
        subst h
        obtain ⟨h1, h2, _⟩ := azureCli_fields_ne ce c hc
        exact ⟨h1, h2⟩
      · obtain ⟨h1, h2, _⟩ := envVars_fields_ne ee cfg h
        exact ⟨h1, h2⟩

/-- Git+API environment of the C4 counterexample: the service returns a
pull request whose optional pullRequestId is absent. -/
def envPrIdEmpty : GitApiEnv :=
  ⟨some "t", true, "b", "https://dev.azure.com/o/p/_git/r", none,
    fun _ => [⟨none, "refs/heads/b", .active, "x"⟩]⟩

/-- C4 counterexample: getConfigFromGitAndApi returns a config whose prId
is the empty string (the source writes pullRequestId?.toString() || "")
when the selected PR carries no id, so resolution can return a config with
an empty field. -/
theorem claim_C4_counterexample :
    (getConfigFromGitAndApi envPrIdEmpty).2 = some ⟨"t", "o", "p", "r", ""⟩ := by
  rfl

/-- C4 amended: resolution returns null or a config whose token and org
are non-empty; getConfigFromEnvVars guarantees all five fields non-empty;
getConfigFromGitAndApi guarantees token, org, project and repo non-empty
but prId may be empty when the selected PR lacks an id; parseAzurePr
guarantees token, org and prId non-empty while project and repo are
copied verbatim from the PR object. -/
theorem claim_C4_complete_config_amended :
    (∀ (e : EnvVarsEnv) (cfg : AzureConfig), getConfigFromEnvVars e = some cfg →
      cfg.token ≠ "" ∧ cfg.org ≠ "" ∧ cfg.project ≠ "" ∧ cfg.repo ≠ "" ∧ cfg.prId ≠ "")
    ∧ (∀ (env : GitApiEnv) (cfg : AzureConfig), (getConfigFromGitAndApi env).2 = some cfg →
      cfg.token ≠ "" ∧ cfg.org ≠ "" ∧ cfg.project ≠ "" ∧ cfg.repo ≠ "")
    ∧ (∀ (token : Option String) (pr : PrObj) (cfg : AzureConfig),
      parseAzurePr token pr = some cfg →
      cfg.token ≠ "" ∧ cfg.org ≠ "" ∧ cfg.prId ≠ "")
    ∧ (∀ (useEnvVars : Bool) (ge : GitApiEnv) (ce : CliEnv) (ee : EnvVarsEnv)
        (cfg : AzureConfig), getAzureDevOpsConfig useEnvVars ge ce ee = some cfg →
      cfg.token ≠ "" ∧ cfg.org ≠ "") :=
  ⟨envVars_fields_ne, gitApi_fields_ne, parseAzurePr_fields_ne, resolution_fields_ne⟩

/-- Environment variables of the C4 witness. -/
def envVarsW : EnvVarsEnv :=
  ⟨some "a", some "b", some "c", some "d", some "e", none⟩

/-- C4 witness: concrete configs produced by the environment-variable
strategy, the git+API strategy and parseAzurePr have the guaranteed
non-empty fields. -/
theorem claim_C4_witness :
    (getConfigFromEnvVars envVarsW = some ⟨"a", "b", "c", "d", "e"⟩
      ∧ ("a" : String) ≠ "" ∧ ("b" : String) ≠ "" ∧ ("c" : String) ≠ ""
      ∧ ("d" : String) ≠ "" ∧ ("e" : String) ≠ "")
    ∧ ((getConfigFromGitAndApi envPrIdEmpty).2 = some ⟨"t", "o", "p", "r", ""⟩
      ∧ ("t" : String) ≠ "" ∧ ("o" : String) ≠ "" ∧ ("p" : String) ≠ ""
      ∧ ("r" : String) ≠ "")
    ∧ (parseAzurePr (some "tok") prObjBranch = some ⟨"tok", "myorg", "proj1", "repo1", "7"⟩
      ∧ ("tok" : String) ≠ "" ∧ ("myorg" : String) ≠ "" ∧ ("7" : String) ≠ "") := by
  refine ⟨⟨by rfl, ?_⟩, ⟨by rfl, ?_⟩, ⟨by rfl, ?_⟩⟩
  · exact claim_C4_complete_config_amended.1 envVarsW ⟨"a", "b", "c", "d", "e"⟩ (by rfl)
  · exact claim_C4_complete_config_amended.2.1 envPrIdEmpty ⟨"t", "o", "p", "r", ""⟩ (by rfl)
  · exact claim_C4_complete_config_amended.2.2.1 (some "tok") prObjBranch
      ⟨"tok", "myorg", "proj1", "repo1", "7"⟩ (by rfl)

theorem containsSeq_prepend (a b pat : List Char) (h : containsSeq b pat = true) :
    containsSeq (a ++ b) pat = true := by
  induction a with
  | nil => simpa using h
  | cons c cs ih => simp [containsSeq, ih]

theorem jsIncludes_prepend (a b pat : String) (h : jsIncludes b pat = true) :
    jsIncludes (a ++ b) pat = true := by
  rw [jsIncludes, strData_append]
  exact containsSeq_prepend a.data b.data pat.data h

/-- C7: a remote URL matching neither the HTTPS nor the SSH pattern makes
parseAzureDevOpsRemote throw an error whose message names both expected
formats, and no value is returned. -/
theorem claim_C7_unparseable_remote_throws (s : String)
    (h1 : searchHttps s.data = none) (h2 : searchSsh s.data = none) :
    parseAzureDevOpsRemote s = .error (unparseableRemoteMsg s)
    ∧ jsIncludes (unparseableRemoteMsg s) "https://dev.azure.com/org/project/_git/repo" = true
    ∧ jsIncludes (unparseableRemoteMsg s) "org@vs-ssh.visualstudio.com:v3/org/project/repo" = true
    ∧ ∀ ri, parseAzureDevOpsRemote s ≠ .ok ri := by
  have herr : parseAzureDevOpsRemote s = .error (unparseableRemoteMsg s) := by
    rw [parseAzureDevOpsRemote, h1, h2]
  have hmsg : unparseableRemoteMsg s =
      ("Unable to parse Azure DevOps remote URL: " ++ s) ++
        ". Expected format: https://dev.azure.com/org/project/_git/repo or org@vs-ssh.visualstudio.com:v3/org/project/repo" := by
    rw [unparseableRemoteMsg]
  refine ⟨herr, ?_, ?_, ?_⟩
  · rw [hmsg]
    exact jsIncludes_prepend _ _ _ (by decide)
  · rw [hmsg]
    exact jsIncludes_prepend _ _ _ (by decide)
  · intro ri hok
    rw [herr] at hok
    exact Except.noConfusion hok

/-- C7 witness: a GitHub URL matches neither pattern and throws the
descriptive error. -/
theorem claim_C7_witness :
    parseAzureDevOpsRemote "https://github.com/user/repo" =
      .error (unparseableRemoteMsg "https://github.com/user/repo")
    ∧ jsIncludes (unparseableRemoteMsg "https://github.com/user/repo")
        "https://dev.azure.com/org/project/_git/repo" = true
    ∧ jsIncludes (unparseableRemoteMsg "https://github.com/user/repo")
        "org@vs-ssh.visualstudio.com:v3/org/project/repo" = true := by
  have h := claim_C7_unparseable_remote_throws "https://github.com/user/repo"
    (by decide) (by decide)
  exact ⟨h.1, h.2.1, h.2.2.1⟩

/-- C6: an HTTPS remote of the form
https://dev.azure.com/org/project/_git/repo parses to exactly the
organization, the percent-decoded project and the repository; an SSH
remote of the form org@vs-ssh.visualstudio.com:v3/org/project/repo parses
to the same triple. -/
theorem claim_C6_remote_url_parsing (org proj repo : String) (pd : List Char)
    (ho : org.data ≠ []) (ho2 : ∀ c ∈ org.data, c ≠ '/')
    (hp : proj.data ≠ []) (hp2 : ∀ c ∈ proj.data, c ≠ '/')
    (hr : repo.data ≠ []) (hr2 : ∀ c ∈ repo.data, c ≠ '/')
    (hdec : decodeSeq proj.data = some pd) :
    parseAzureDevOpsRemote ("https://dev.azure.com/" ++ org ++ "/" ++ proj ++ "/_git/" ++ repo)
      = .ok ⟨org, ⟨pd⟩, repo⟩
    ∧ ((∀ c ∈ org.data, c ≠ '@') →
      parseAzureDevOpsRemote (org ++ "@vs-ssh.visualstudio.com:v3/" ++ org ++ "/" ++ proj ++ "/" ++ repo)
        = .ok ⟨org, ⟨pd⟩, repo⟩) := by
  have ho2b : ∀ c ∈ org.data, (c == '/') = false := fun c hc => by simp [ho2 c hc]
  have hp2b : ∀ c ∈ proj.data, (c == '/') = false := fun c hc => by simp [hp2 c hc]
  have hr2b : ∀ c ∈ repo.data, (c == '/') = false := fun c hc => by simp [hr2 c hc]
  constructor
  · have hmatch := httpsMatchAt_build org.data proj.data repo.data ho ho2b hp hp2b hr hr2b
    have hdata : ("https://dev.azure.com/" ++ org ++ "/" ++ proj ++ "/_git/" ++ repo).data =
        "https://dev.azure.com/".data ++
          (org.data ++ '/' :: (proj.data ++ '/' :: ('_' :: 'g' :: 'i' :: 't' :: '/' :: repo.data))) := by
      simp only [strData_append]
      simp [List.append_assoc]
    have hsearch : searchHttps
        (("https://dev.azure.com/" ++ org ++ "/" ++ proj ++ "/_git/" ++ repo).data) =
        some ⟨org.data, proj.data, repo.data⟩ := by
      rw [hdata]
      have hcons : "https://dev.azure.com/".data ++
          (org.data ++ '/' :: (proj.data ++ '/' :: ('_' :: 'g' :: 'i' :: 't' :: '/' :: repo.data))) =
          'h' :: ("ttps://dev.azure.com/".data ++
            (org.data ++ '/' :: (proj.data ++ '/' :: ('_' :: 'g' :: 'i' :: 't' :: '/' :: repo.data)))) := rfl
      rw [hcons]
      apply searchHttps_cons
      rw [← hcons]
      exact hmatch
    rw [parseAzureDevOpsRemote, hsearch]
    simp only [hdec]
  · intro ho3
    have ho3b : ∀ c ∈ org.data, (c == '@') = false := fun c hc => by simp [ho3 c hc]
    have hmatch2 := sshMatchAt_build org.data proj.data repo.data ho ho2b ho3b hp hp2b hr hr2b
    have hdata2 : (org ++ "@vs-ssh.visualstudio.com:v3/" ++ org ++ "/" ++ proj ++ "/" ++ repo).data =
        org.data ++ '@' ::
          ("vs-ssh.visualstudio.com:v3/".data ++ (org.data ++ '/' :: (proj.data ++ '/' :: repo.data))) := by
      simp only [strData_append]
      simp [List.append_assoc]
    have hnods := noDS_ssh org.data proj.data repo.data ho ho2b hp hp2b hr2b
    have hs1 : searchHttps
        ((org ++ "@vs-ssh.visualstudio.com:v3/" ++ org ++ "/" ++ proj ++ "/" ++ repo).data) = none := by
      rw [hdata2]
      exact searchHttps_none_of_noDS _ hnods
    have hs2 : searchSsh
        ((org ++ "@vs-ssh.visualstudio.com:v3/" ++ org ++ "/" ++ proj ++ "/" ++ repo).data) =
        some ⟨org.data, proj.data, repo.data⟩ := by
      rw [hdata2]
      cases hod : org.data with
      | nil => exact absurd hod ho
      | cons c cs =>
        rw [hod] at hmatch2
        have hcons : ((c :: cs) ++ '@' ::
            ("vs-ssh.visualstudio.com:v3/".data ++ ((c :: cs) ++ '/' :: (proj.data ++ '/' :: repo.data)))) =
            c :: (cs ++ '@' ::
              ("vs-ssh.visualstudio.com:v3/".data ++ ((c :: cs) ++ '/' :: (proj.data ++ '/' :: repo.data)))) := rfl
        rw [hcons]
        apply searchSsh_cons
        rw [← hcons]
        exact hmatch2
    rw [parseAzureDevOpsRemote, hs1, hs2]
    simp only [hdec]

/-- C6 witness: the repository test vectors, with a percent-encoded
project name, parse to the decoded triple in both URL forms. -/
theorem claim_C6_witness :
    parseAzureDevOpsRemote
        "https://dev.azure.com/convergentis/CIS%20Planning/_git/PGW-TemplateBuilder-BTP"
      = .ok ⟨"convergentis", "CIS Planning", "PGW-TemplateBuilder-BTP"⟩
    ∧ parseAzureDevOpsRemote
        "convergentis@vs-ssh.visualstudio.com:v3/convergentis/CIS%20Planning/PGW-TemplateBuilder-BTP"
      = .ok ⟨"convergentis", "CIS Planning", "PGW-TemplateBuilder-BTP"⟩ := by
  have h := claim_C6_remote_url_parsing "convergentis" "CIS%20Planning"
    "PGW-TemplateBuilder-BTP" "CIS Planning".data
    (by decide) (by decide) (by decide) (by decide) (by decide) (by decide) (by decide)
  exact ⟨h.1, h.2 (by decide)⟩
